import Mathlib

/-!
Shallow embedding of the `memory_storage` crate (src/lib.rs, src/slot.rs,
src/vec.rs): a stable-index storage container with an in-place singly linked
free list threaded through the unused slots, plus the growth extension used
by the growable-vector variant.

Modelling conventions:
* the backing buffer (`[Slot<T>]` slice / `Vec<Slot<T>>`) is a `List (Slot T)`;
* `usize` indices and counters are `Nat` (no arithmetic here ever approaches
  overflow; the only subtraction, `taken_slots -= 1`, is commented at its site);
* Rust panics (`panic!`, `unreachable!`, out-of-bounds indexing, `expect`) are
  modelled as `Option.none`, except in `remove` where the engine state at the
  moment of the panic is observable by an unwinding caller, so `remove`
  returns `Except (MemoryStorage T) (T × MemoryStorage T)` whose `error`
  carries the state as it is when the panic fires;
* `Vec::capacity()` growth behaviour is external to this crate, so `push`
  takes the provider's new true allocated capacity `new_capacity` as an
  explicit parameter (the Rust `self.storage.capacity()` read after the
  probe push/pop pair, which leaves the slot contents unchanged).
-/

namespace MemStore

/-- A slot representing a spot in the storage (src/slot.rs). -/
inductive Slot (T : Type) where
  | Taken : T → Slot T
  | NextFreeSlot : Option Nat → Slot T
deriving DecidableEq

namespace Slot

/-- Rust `Slot::is_taken` (src/slot.rs). -/
def is_taken : Slot T → Bool
  | .Taken _ => true
  | .NextFreeSlot _ => false

/-- Rust `Slot::is_free` (src/slot.rs). -/
def is_free (s : Slot T) : Bool :=
  !s.is_taken

/-- Rust `Slot::taken` (src/slot.rs): the value if Taken, else an empty result. -/
def taken : Slot T → Option T
  | .Taken item => some item
  | .NextFreeSlot _ => none

/-- Rust `Slot::taken_mut` (src/slot.rs); mutable borrows are modelled by value. -/
def taken_mut : Slot T → Option T
  | .Taken item => some item
  | .NextFreeSlot _ => none

end Slot

/-- The ID used to gain access to stored items (`Id(usize)`, src/lib.rs).
Two Ids are equal iff their wrapped indices are equal. -/
structure Id where
  idx : Nat
deriving DecidableEq

/-- Error to signal that the storage is full (src/lib.rs); it carries the
rejected item back to the caller. -/
structure InternalStorageFullError (T : Type) where
  value : T
deriving DecidableEq

/-- The instance that will store all the items (src/lib.rs). The three Rust
buffer providers (`[Slot<T>; S]`, `FixedCapacitySlotVec<T>`, `Vec<Slot<T>>`)
are all fixed-length indexable sequences of slots, modelled as one list. -/
structure MemoryStorage (T : Type) where
  storage : List (Slot T)
  next_free_slot : Option Nat
  last_free_slot : Option Nat
  taken_slots : Nat
  capacity : Nat
deriving DecidableEq

namespace MemoryStorage

variable {T : Type}

/-- The `for i in 0..n { storage[i] = Free(Some(i+1)) }` loop of
`MemoryStorage::clear` (src/lib.rs), unrolled from the top: iteration `n`
writes index `n`. -/
def setFreeLinks (l : List (Slot T)) : Nat → List (Slot T)
  | 0 => l
  | n + 1 => (setFreeLinks l n).set n (Slot.NextFreeSlot (some (n + 1)))

/-- Rust `MemoryStorage::clear` (src/lib.rs). The `none` result models the
out-of-bounds indexing panic of the loop body when `capacity` exceeds the
buffer length (impossible in reachable states, where they are equal). -/
def clear (s : MemoryStorage T) : Option (MemoryStorage T) :=
  if s.capacity = 0 then
    some s
  else if s.capacity ≤ s.storage.length then
    some { storage := (setFreeLinks s.storage s.capacity).set (s.capacity - 1)
                        (Slot.NextFreeSlot none),
           next_free_slot := some 0,
           last_free_slot := some (s.capacity - 1),
           taken_slots := 0,
           capacity := s.capacity }
  else
    none

/-- Rust `MemoryStorage::fill_free_slot` (src/lib.rs); `none` models the
out-of-bounds indexing panic and the `unreachable!("Slot wasn't free!")`. -/
def fill_free_slot (s : MemoryStorage T) (free_slot : Nat) (item : T) :
    Option (Id × MemoryStorage T) :=
  match s.storage[free_slot]? with
  | none => none
  | some (Slot.Taken _) => none
  | some (Slot.NextFreeSlot next) =>
    let s₁ : MemoryStorage T :=
      match next with
      | none => { s with taken_slots := s.taken_slots + 1,
                         next_free_slot := none, last_free_slot := none }
      | some _ => { s with taken_slots := s.taken_slots + 1,
                           next_free_slot := next }
    some (⟨free_slot⟩, { s₁ with storage := s₁.storage.set free_slot (Slot.Taken item) })

/-- Rust `MemoryStorage::insert` (src/lib.rs): the ID on a successful insert, the
item wrapped in an error whenever there is no space left. -/
def insert (s : MemoryStorage T) (item : T) :
    Option (Except (InternalStorageFullError T) Id × MemoryStorage T) :=
  match s.next_free_slot with
  | none => some (Except.error ⟨item⟩, s)
  | some next_free_slot =>
    (s.fill_free_slot next_free_slot item).map (fun p => (Except.ok p.1, p.2))

/-- Rust `MemoryStorage::remove` (src/lib.rs). A Rust panic unwinds after the
mutations already performed, so `error` carries the engine state as it is at
the moment the panic fires: `mem::replace` has already written the
`Free(None)` placeholder when the `is_free` check panics, and `taken_slots`
has already been decremented when the `unreachable!("Slot should exist!")`
fires. The Rust `taken_slots -= 1` is `Nat` subtraction; it can underflow
only when a slot is Taken while `taken_slots = 0`, which no reachable state
exhibits. -/
def remove (s : MemoryStorage T) (id : Id) :
    Except (MemoryStorage T) (T × MemoryStorage T) :=
  match s.storage[id.idx]? with
  | none => Except.error s
  | some slot =>
    let s₀ : MemoryStorage T :=
      { s with storage := s.storage.set id.idx (Slot.NextFreeSlot none) }
    match slot with
    | Slot.NextFreeSlot _ => Except.error s₀
    | Slot.Taken v =>
      let s₁ : MemoryStorage T := { s₀ with taken_slots := s₀.taken_slots - 1 }
      match s₁.last_free_slot with
      | some free_slot =>
        match s₁.storage[free_slot]? with
        | none => Except.error s₁
        | some (Slot.NextFreeSlot _) =>
          Except.ok (v, { s₁ with
            storage := s₁.storage.set free_slot (Slot.NextFreeSlot (some id.idx)),
            last_free_slot := some id.idx })
        | some (Slot.Taken _) =>
          Except.ok (v, { s₁ with last_free_slot := some id.idx })
      | none =>
        Except.ok (v, { s₁ with next_free_slot := some id.idx,
                                last_free_slot := some id.idx })

/-- Rust `MemoryStorage::get` (src/lib.rs). -/
def get (s : MemoryStorage T) (id : Id) : Option T :=
  (s.storage[id.idx]?).bind Slot.taken

/-- Rust `MemoryStorage::get_mut` (src/lib.rs); the mutable borrow is modelled by
the value it would expose. -/
def get_mut (s : MemoryStorage T) (id : Id) : Option T :=
  (s.storage[id.idx]?).bind Slot.taken_mut

end MemoryStorage

/-- Rust `initiate_array` (src/lib.rs): `from_fn(|i| Free(Some(i+1)))`, then, when
`S != 0`, the last index overwritten with `Free(None)`. -/
def initiate_array (T : Type) (S : Nat) : List (Slot T) :=
  let array := (List.range S).map (fun i => Slot.NextFreeSlot (some (i + 1)))
  if S ≠ 0 then array.set (S - 1) (Slot.NextFreeSlot none) else array

/-- Rust `new_with_array` (src/lib.rs). -/
def new_with_array (T : Type) (S : Nat) : MemoryStorage T :=
  { storage := initiate_array T S,
    next_free_slot := if S = 0 then none else some 0,
    last_free_slot := if S = 0 then none else some (S - 1),
    taken_slots := 0,
    capacity := S }

/-- Rust `initiate_vec` (src/vec.rs): push `Free(Some(i+1))` for `i` in
`0..capacity`, then, when `capacity != 0`, overwrite the last index with
`Free(None)`. -/
def initiate_vec (T : Type) (capacity : Nat) : List (Slot T) :=
  let vec := (List.range capacity).map (fun i => Slot.NextFreeSlot (some (i + 1)))
  if capacity ≠ 0 then vec.set (capacity - 1) (Slot.NextFreeSlot none) else vec

/-- Rust `new_with_fixed_capacity_vec` (src/vec.rs). -/
def new_with_fixed_capacity_vec (T : Type) (capacity : Nat) : MemoryStorage T :=
  { storage := initiate_vec T capacity,
    next_free_slot := if capacity = 0 then none else some 0,
    last_free_slot := if capacity = 0 then none else some (capacity - 1),
    taken_slots := 0,
    capacity := capacity }

/-- Rust `new_with_vec` (src/vec.rs). -/
def new_with_vec (T : Type) (capacity : Nat) : MemoryStorage T :=
  { storage := initiate_vec T capacity,
    next_free_slot := if capacity = 0 then none else some 0,
    last_free_slot := if capacity = 0 then none else some (capacity - 1),
    taken_slots := 0,
    capacity := capacity }

namespace MemoryStorage

variable {T : Type}

/-- The two-branch `(starting_index, slots_to_insert)` computation of
`MemoryStorage::push` (src/vec.rs, lines 51-55). -/
def growth_range (old_capacity new_capacity : Nat) : Nat × Nat :=
  if old_capacity ≠ 0 then (old_capacity, new_capacity - old_capacity)
  else (0, new_capacity)

/-- The canonical growth policy as the spec words it: the new region starts
at `old_capacity` and holds `new_capacity - old_capacity` slots. (Spec-worded
definition, for the refinement comparison of the two-branch source code.) -/
def growth_range_canonical (old_capacity new_capacity : Nat) : Nat × Nat :=
  (old_capacity, new_capacity - old_capacity)

/-- The slots appended by the growth loop of `push` (src/vec.rs, lines
56-61): the `k`-th pushed slot links to `starting_index + 1 + k`, because
`next_free_index` is incremented before each push. -/
def newSlots (T : Type) (starting_index slots_to_insert : Nat) : List (Slot T) :=
  (List.range slots_to_insert).map
    (fun k => Slot.NextFreeSlot (some (starting_index + 1 + k)))

/-- The growth extension inlined in `MemoryStorage::push` (src/vec.rs, lines
43-77): everything between the failed first insert and the retried insert.
`new_capacity` is the provider's true allocated capacity read back after the
probe push/pop pair (which leaves the slot contents unchanged). `none` models
the `last_mut().expect(..)` and `get_mut(..).expect(..)` panics. -/
def grow (s : MemoryStorage T) (new_capacity : Nat) : Option (MemoryStorage T) :=
  let old_capacity := s.capacity
  let p := growth_range old_capacity new_capacity
  let storage₁ := s.storage ++ newSlots T p.1 p.2
  if storage₁.length = 0 then
    none
  else
    let storage₂ := storage₁.set (storage₁.length - 1) (Slot.NextFreeSlot none)
    match s.last_free_slot with
    | none =>
      some { s with storage := storage₂,
                    next_free_slot := some p.1,
                    last_free_slot := some (new_capacity - 1),
                    capacity := new_capacity }
    | some last_free_slot =>
      match storage₂[last_free_slot]? with
      | none => none
      | some _ =>
        some { s with storage := storage₂.set last_free_slot
                                   (Slot.NextFreeSlot (some p.1)),
                      capacity := new_capacity }

/-- Rust `MemoryStorage::push` (src/vec.rs): insert, and on exhaustion grow and
retry; `none` models the growth-path panics, including the final
`expect("We just made space available!")`. -/
def push (s : MemoryStorage T) (item : T) (new_capacity : Nat) :
    Option (Id × MemoryStorage T) :=
  match s.insert item with
  | none => none
  | some (Except.ok id, s') => some (id, s')
  | some (Except.error err, s') =>
    match s'.grow new_capacity with
    | none => none
    | some s₂ =>
      match s₂.insert err.value with
      | some (Except.ok id, s₃) => some (id, s₃)
      | _ => none

/-- Number of Taken slots in a buffer. -/
def countTaken : List (Slot T) → Nat
  | [] => 0
  | Slot.Taken _ :: rest => countTaken rest + 1
  | Slot.NextFreeSlot _ :: rest => countTaken rest

/-- Number of Free slots in a buffer. -/
def countFree : List (Slot T) → Nat
  | [] => 0
  | Slot.Taken _ :: rest => countFree rest
  | Slot.NextFreeSlot _ :: rest => countFree rest + 1

lemma countTaken_cons (a : Slot T) (l : List (Slot T)) :
    countTaken (a :: l) = countTaken l + (if a.is_taken then 1 else 0) := by
  cases a <;> simp [countTaken, Slot.is_taken]

lemma countFree_cons (a : Slot T) (l : List (Slot T)) :
    countFree (a :: l) = countFree l + (if a.is_taken then 0 else 1) := by
  cases a <;> simp [countFree, Slot.is_taken]

lemma countTaken_append (l m : List (Slot T)) :
    countTaken (l ++ m) = countTaken l + countTaken m := by
  induction l with
  | nil => simp [countTaken]
  | cons a l ih => simp [countTaken_cons, ih]; omega

lemma countTaken_add_countFree (l : List (Slot T)) :
    countTaken l + countFree l = l.length := by
  induction l with
  | nil => simp [countTaken, countFree]
  | cons a l ih =>
    cases a <;> simp [countTaken_cons, countFree_cons, Slot.is_taken] <;> omega

lemma countTaken_le_length (l : List (Slot T)) : countTaken l ≤ l.length := by
  have := countTaken_add_countFree l
  omega

lemma countTaken_set (l : List (Slot T)) (i : Nat) (a b : Slot T)
    (h : l[i]? = some b) :
    countTaken (l.set i a) + (if b.is_taken then 1 else 0) =
      countTaken l + (if a.is_taken then 1 else 0) := by
  induction l generalizing i with
  | nil => simp at h
  | cons c l ih =>
    cases i with
    | zero =>
      simp only [List.getElem?_cons_zero, Option.some.injEq] at h
      subst h
      simp [List.set, countTaken_cons]
      omega
    | succ n =>
      simp only [List.getElem?_cons_succ] at h
      have ihh := ih n h
      simp only [List.set, countTaken_cons]
      omega

lemma countTaken_eq_zero (l : List (Slot T))
    (h : ∀ (j : Nat) (v : T), l[j]? ≠ some (Slot.Taken v)) : countTaken l = 0 := by
  induction l with
  | nil => rfl
  | cons a l ih =>
    cases a with
    | Taken v => exact absurd (by simp) (h 0 v)
    | NextFreeSlot link =>
      simp only [countTaken]
      apply ih
      intro j v hj
      exact h (j + 1) v (by simpa using hj)

lemma countTaken_pos (l : List (Slot T)) (i : Nat) (v : T)
    (h : l[i]? = some (Slot.Taken v)) : 0 < countTaken l := by
  induction l generalizing i with
  | nil => simp at h
  | cons a l ih =>
    cases i with
    | zero =>
      simp only [List.getElem?_cons_zero, Option.some.injEq] at h
      subst h; simp [countTaken]
    | succ n =>
      simp only [List.getElem?_cons_succ] at h
      have ihh := ih n h
      cases a <;> simp only [countTaken] <;> omega

lemma length_setFreeLinks (l : List (Slot T)) (n : Nat) :
    (setFreeLinks l n).length = l.length := by
  induction n with
  | zero => rfl
  | succ n ih => simp [setFreeLinks, List.length_set, ih]

lemma getElem?_setFreeLinks (l : List (Slot T)) (n j : Nat) :
    (setFreeLinks l n)[j]? =
      if j < n ∧ j < l.length then some (Slot.NextFreeSlot (some (j + 1)))
      else l[j]? := by
  induction n with
  | zero => simp [setFreeLinks]
  | succ n ih =>
    by_cases hj : j = n
    · subst hj
      by_cases hlen : j < l.length
      · rw [setFreeLinks,
          List.getElem?_set_eq_of_lt _ (by rw [length_setFreeLinks]; exact hlen)]
        simp [hlen]
      · rw [setFreeLinks, List.getElem?_set_self', ih]
        simp only [hlen, and_false, if_false]
        have : l[j]? = none := List.getElem?_eq_none (by omega)
        simp [this]
    · rw [setFreeLinks, List.getElem?_set_ne (fun h => hj h.symm), ih]
      by_cases h1 : j < n
      · simp [h1, Nat.lt_succ_of_lt h1]
      · have : ¬ j < n + 1 := by omega
        simp [h1, this]

end MemoryStorage

lemma length_initiate_vec (T : Type) (c : Nat) : (initiate_vec T c).length = c := by
  unfold initiate_vec
  by_cases h : c = 0 <;> simp [h]

lemma getElem?_initiate_vec (T : Type) (c j : Nat) :
    (initiate_vec T c)[j]? =
      if j < c then
        some (Slot.NextFreeSlot (if j + 1 < c then some (j + 1) else none))
      else none := by
  unfold initiate_vec
  rcases Nat.eq_zero_or_pos c with hc | hc
  · subst hc; simp
  · have hbase : ∀ k, ((List.range c).map
        (fun i => Slot.NextFreeSlot (T := T) (some (i + 1))))[k]? =
        if k < c then some (Slot.NextFreeSlot (some (k + 1))) else none := by
      intro k
      rw [List.getElem?_map]
      by_cases hk : k < c
      · rw [List.getElem?_range hk]; simp [hk]
      · rw [List.getElem?_eq_none (by simpa using (by omega : c ≤ k))]
        simp [hk]
    have hc' : c ≠ 0 := by omega
    simp only [hc', ne_eq, not_false_eq_true, if_true]
    by_cases hj : j = c - 1
    · subst hj
      rw [List.getElem?_set_eq_of_lt _ (by simp [List.length_set]; omega)]
      have h1 : c - 1 < c := by omega
      have h2 : ¬ (c - 1 + 1 < c) := by omega
      simp [h1, h2]
    · rw [List.getElem?_set_ne (fun h => hj h.symm), hbase]
      by_cases h1 : j < c
      · have : j + 1 < c := by omega
        simp [h1, this]
      · simp [h1]

lemma initiate_array_eq_initiate_vec (T : Type) (S : Nat) :
    initiate_array T S = initiate_vec T S := rfl

lemma getLast?_cons_of_ne_nil {α : Type} (a : α) {l : List α} (h : l ≠ []) :
    (a :: l).getLast? = l.getLast? := by
  cases l with
  | nil => exact absurd rfl h
  | cons b l => exact List.getLast?_cons_cons

lemma mem_of_getLast? {α : Type} {l : List α} {a : α} (h : l.getLast? = some a) :
    a ∈ l := by
  induction l with
  | nil => simp at h
  | cons b l ih =>
    cases l with
    | nil =>
      simp only [List.getLast?_singleton, Option.some.injEq] at h
      simp [h]
    | cons c l =>
      rw [List.getLast?_cons_cons] at h
      exact List.mem_cons_of_mem _ (ih h)

lemma getLast?_cons_isSome {α : Type} (b : α) (l : List α) :
    ((b :: l).getLast?).isSome := by
  induction l generalizing b with
  | nil => rfl
  | cons c l ih => rw [List.getLast?_cons_cons]; exact ih c

lemma getLast?_eq_none {α : Type} {l : List α} (h : l.getLast? = none) :
    l = [] := by
  cases l with
  | nil => rfl
  | cons b l =>
    have := getLast?_cons_isSome b l
    rw [h] at this
    simp at this

/-- The free list as a relation: `FreeChain st o is` says that starting from
the optional index `o` and following the `NextFreeSlot` links of `st`, the
indices `is` are visited in order, ending with a slot whose link is `none`. -/
inductive FreeChain {T : Type} (st : List (Slot T)) : Option Nat → List Nat → Prop where
  | nil : FreeChain st none []
  | cons {i : Nat} {link : Option Nat} {rest : List Nat} :
      st[i]? = some (Slot.NextFreeSlot link) →
      FreeChain st link rest →
      FreeChain st (some i) (i :: rest)

namespace FreeChain

variable {T : Type} {st : List (Slot T)}

lemma eq_nil (h : FreeChain st none is) : is = [] := by
  cases h; rfl

lemma head_none (h : FreeChain st o []) : o = none := by
  cases h; rfl

lemma head_cons (h : FreeChain st o (i :: rest)) : o = some i := by
  cases h; rfl

lemma mem_free (h : FreeChain st o is) :
    ∀ j ∈ is, ∃ l, st[j]? = some (Slot.NextFreeSlot l) := by
  induction h with
  | nil => intro j hj; simp at hj
  | cons hslot htail ih =>
    intro j hj
    rcases List.mem_cons.mp hj with rfl | hj
    · exact ⟨_, hslot⟩
    · exact ih j hj

lemma mem_lt_length (h : FreeChain st o is) : ∀ j ∈ is, j < st.length := by
  intro j hj
  obtain ⟨l, hl⟩ := h.mem_free j hj
  exact (List.getElem?_eq_some.mp hl).1

/-- Overwriting a slot outside the chain does not disturb the chain. -/
lemma set_outside {o : Option Nat} {is : List Nat} (h : FreeChain st o is)
    {i : Nat} (hi : i ∉ is) (a : Slot T) : FreeChain (st.set i a) o is := by
  induction h with
  | nil => exact nil
  | @cons j link rest hslot htail ih =>
    refine cons ?_ (ih (fun hmem => hi (List.mem_cons_of_mem _ hmem)))
    have hij : i ≠ j := by
      intro hij
      subst hij
      exact hi (List.mem_cons_self _ _)
    rw [List.getElem?_set_ne hij]
    exact hslot

/-- Appending a fresh index `i` at the tail of the chain: retarget the old
tail slot `t` to link to `i`, give `i` a `none` link, leave the other chain
slots alone. -/
lemma append_tail {o : Option Nat} {is : List Nat} (h : FreeChain st o is)
    {t i : Nat} {st' : List (Slot T)}
    (hlast : is.getLast? = some t) (hnd : is.Nodup) (hi : i ∉ is)
    (ht' : st'[t]? = some (Slot.NextFreeSlot (some i)))
    (hkeep : ∀ j, j ∈ is → j ≠ t → st'[j]? = st[j]?)
    (hi' : st'[i]? = some (Slot.NextFreeSlot none)) :
    FreeChain st' o (is ++ [i]) := by
  induction h with
  | nil => simp at hlast
  | @cons j link rest hslot htail ih =>
    by_cases hrest : rest = []
    · subst hrest
      have hjt : j = t := by simpa using hlast
      subst hjt
      exact cons ht' (cons hi' nil)
    · have hlast' : rest.getLast? = some t := by
        rwa [getLast?_cons_of_ne_nil _ hrest] at hlast
      have hjt : j ≠ t := by
        intro hjt
        subst hjt
        exact (List.nodup_cons.mp hnd).1 (mem_of_getLast? hlast')
      refine cons ?_ (ih hlast' (List.nodup_cons.mp hnd).2
        (fun hmem => hi (List.mem_cons_of_mem _ hmem))
        (fun j' hj' hj't => hkeep j' (List.mem_cons_of_mem _ hj') hj't))
      rw [hkeep j (List.mem_cons_self _ _) hjt]
      exact hslot

end FreeChain

/-- A region of consecutive indices `[k, n)` whose slots each link to the
next index, the last one to `none`, forms a free chain. This is the shape the
constructors, `clear` and the growth extension all produce. -/
lemma freeChain_consecutive {T : Type} (st : List (Slot T)) (n : Nat) :
    ∀ (m k : Nat), k + m = n →
      (∀ j, k ≤ j → j < n →
        st[j]? = some (Slot.NextFreeSlot (if j + 1 < n then some (j + 1) else none))) →
      FreeChain st (if 0 < m then some k else none) (List.range' k m) := by
  intro m
  induction m with
  | zero =>
    intro k _ _
    simpa using FreeChain.nil
  | succ m ih =>
    intro k hk hslots
    have hkn : k < n := by omega
    have hslot := hslots k (Nat.le_refl k) hkn
    rw [show List.range' k (m + 1) = k :: List.range' (k + 1) m from rfl,
      if_pos (Nat.zero_lt_succ m)]
    refine FreeChain.cons ?_ (ih (k + 1) (by omega)
      (fun j hj hjn => hslots j (by omega) hjn))
    rw [hslot]
    have : (if k + 1 < n then some (k + 1) else none) =
        (if 0 < m then some (k + 1) else none) := by
      by_cases h : 0 < m
      · rw [if_pos h, if_pos (by omega)]
      · rw [if_neg h, if_neg (by omega)]
    rw [this]

lemma getLast?_range' : ∀ (n s : Nat), 0 < n →
    (List.range' s n).getLast? = some (s + n - 1) := by
  intro n
  induction n with
  | zero => intro s h; omega
  | succ m ih =>
    intro s _
    cases m with
    | zero => simp [List.range']
    | succ m' =>
      rw [show List.range' s (m' + 2) = s :: List.range' (s + 1) (m' + 1) from rfl,
        getLast?_cons_of_ne_nil _ (by simp [List.range']),
        ih (s + 1) (by omega)]
      congr 1
      omega

/-- Engine-state well-formedness: some index list `is` threads the free list
from `head` to `tail`; its members are exactly the Free slots; the `capacity`
field agrees with the buffer length and `taken_slots` with the number of
Taken slots. Every state the public constructors and operations can produce
satisfies it. -/
def WF {T : Type} (s : MemoryStorage T) : Prop :=
  ∃ is : List Nat,
    FreeChain s.storage s.next_free_slot is ∧
    s.last_free_slot = is.getLast? ∧
    is.Nodup ∧
    (∀ (j : Nat) (l : Option Nat),
      s.storage[j]? = some (Slot.NextFreeSlot l) → j ∈ is) ∧
    s.storage.length = s.capacity ∧
    s.taken_slots = MemoryStorage.countTaken s.storage

lemma WF_new_with_vec (T : Type) (c : Nat) : WF (new_with_vec T c) := by
  refine ⟨List.range' 0 c, ?_, ?_, ?_, ?_, ?_, ?_⟩
  · have hc := freeChain_consecutive (initiate_vec T c) c c 0 (by omega)
      (fun j _ hj => by rw [getElem?_initiate_vec]; rw [if_pos hj])
    show FreeChain (initiate_vec T c) (if c = 0 then none else some 0) _
    by_cases h : c = 0
    · subst h; simpa using hc
    · rw [if_neg h]
      rw [if_pos (by omega : 0 < c)] at hc
      exact hc
  · show (if c = 0 then none else some (c - 1)) = _
    by_cases h : c = 0
    · subst h; simp
    · rw [if_neg h, getLast?_range' c 0 (by omega)]
      congr 1
      omega
  · exact List.nodup_range' 0 c 1 (by omega)
  · intro j l hj
    show j ∈ List.range' 0 c
    rw [show (new_with_vec T c).storage = initiate_vec T c from rfl,
      getElem?_initiate_vec] at hj
    by_cases h : j < c
    · rw [List.mem_range'_1]; omega
    · rw [if_neg h] at hj; simp at hj
  · exact length_initiate_vec T c
  · refine (MemoryStorage.countTaken_eq_zero _ ?_).symm
    intro j v hj
    rw [show (new_with_vec T c).storage = initiate_vec T c from rfl,
      getElem?_initiate_vec] at hj
    by_cases h : j < c
    · rw [if_pos h] at hj; simp at hj
    · rw [if_neg h] at hj; simp at hj

lemma new_with_array_eq (T : Type) (S : Nat) :
    new_with_array T S = new_with_vec T S := rfl

lemma new_with_fixed_capacity_vec_eq (T : Type) (c : Nat) :
    new_with_fixed_capacity_vec T c = new_with_vec T c := rfl

lemma nodup_concat {α : Type} {l : List α} {a : α} (hnd : l.Nodup) (ha : a ∉ l) :
    (l ++ [a]).Nodup := by
  induction l with
  | nil => simp
  | cons b l ih =>
    rw [List.cons_append, List.nodup_cons]
    refine ⟨?_, ih (List.nodup_cons.mp hnd).2 (fun h => ha (List.mem_cons_of_mem _ h))⟩
    intro hb
    rcases List.mem_append.mp hb with hb | hb
    · exact (List.nodup_cons.mp hnd).1 hb
    · have hba : b = a := by simpa using hb
      subst hba
      exact ha (List.mem_cons_self _ _)

namespace MemoryStorage

variable {T : Type}

lemma fill_WF {s : MemoryStorage T} (hwf : WF s) {h : Nat}
    (hh : s.next_free_slot = some h) (x : T) :
    ∃ s', s.fill_free_slot h x = some (⟨h⟩, s') ∧ WF s' ∧
      s'.capacity = s.capacity ∧ s'.taken_slots = s.taken_slots + 1 ∧
      s'.storage = s.storage.set h (Slot.Taken x) := by
  obtain ⟨is, hchain, hlast, hnd, hmem, hlen, hcount⟩ := hwf
  rw [hh] at hchain
  cases hchain with
  | @cons _ link rest hslot htail =>
    have hcnt := countTaken_set s.storage h (Slot.Taken x) _ hslot
    simp only [Slot.is_taken] at hcnt
    simp at hcnt
    have hfreemem : ∀ (j : Nat) (l' : Option Nat),
        (s.storage.set h (Slot.Taken x))[j]? = some (Slot.NextFreeSlot l') →
        j ∈ rest := by
      intro j l' hj
      by_cases hjh : j = h
      · subst hjh
        rw [List.getElem?_set_self', hslot] at hj
        simp at hj
      · rw [List.getElem?_set_ne (fun e => hjh e.symm)] at hj
        have hjmem := hmem j l' hj
        rcases List.mem_cons.mp hjmem with rfl | hjmem
        · exact absurd rfl hjh
        · exact hjmem
    cases link with
    | none =>
      have hrest : rest = [] := htail.eq_nil
      subst hrest
      refine ⟨{ s with taken_slots := s.taken_slots + 1,
                       next_free_slot := none, last_free_slot := none,
                       storage := s.storage.set h (Slot.Taken x) },
        ?_, ?_, rfl, rfl, rfl⟩
      · simp only [fill_free_slot, hslot]
      · refine ⟨[], FreeChain.nil, rfl, List.nodup_nil, ?_, ?_, ?_⟩
        · intro j l hj
          exact absurd (hfreemem j l hj) (by simp)
        · show (s.storage.set h (Slot.Taken x)).length = s.capacity
          simpa [List.length_set] using hlen
        · show s.taken_slots + 1 = countTaken (s.storage.set h (Slot.Taken x))
          omega
    | some l =>
      have hrest : rest ≠ [] := by cases htail; simp
      have hnotmem : h ∉ rest := (List.nodup_cons.mp hnd).1
      refine ⟨{ s with taken_slots := s.taken_slots + 1,
                       next_free_slot := some l,
                       storage := s.storage.set h (Slot.Taken x) },
        ?_, ?_, rfl, rfl, rfl⟩
      · simp only [fill_free_slot, hslot]
      · refine ⟨rest, htail.set_outside hnotmem _, ?_, (List.nodup_cons.mp hnd).2,
          hfreemem, ?_, ?_⟩
        · show s.last_free_slot = rest.getLast?
          rw [hlast, getLast?_cons_of_ne_nil h hrest]
        · show (s.storage.set h (Slot.Taken x)).length = s.capacity
          simpa [List.length_set] using hlen
        · show s.taken_slots + 1 = countTaken (s.storage.set h (Slot.Taken x))
          omega

lemma insert_full {s : MemoryStorage T} (hn : s.next_free_slot = none) (x : T) :
    s.insert x = some (Except.error ⟨x⟩, s) := by
  simp [insert, hn]

lemma insert_WF {s : MemoryStorage T} (hwf : WF s) {h : Nat}
    (hh : s.next_free_slot = some h) (x : T) :
    ∃ s', s.insert x = some (Except.ok ⟨h⟩, s') ∧ WF s' ∧
      s'.capacity = s.capacity ∧ s'.taken_slots = s.taken_slots + 1 ∧
      s'.storage = s.storage.set h (Slot.Taken x) := by
  obtain ⟨s', hf, hwf', hc, ht, hst⟩ := fill_WF hwf hh x
  exact ⟨s', by simp [insert, hh, hf], hwf', hc, ht, hst⟩

lemma remove_eq_oob {s : MemoryStorage T} {id : Id}
    (hslot : s.storage[id.idx]? = none) :
    s.remove id = Except.error s := by
  simp only [remove, hslot]

lemma remove_eq_free {s : MemoryStorage T} {id : Id} {l : Option Nat}
    (hslot : s.storage[id.idx]? = some (Slot.NextFreeSlot l)) :
    s.remove id = Except.error
      { s with storage := s.storage.set id.idx (Slot.NextFreeSlot none) } := by
  simp only [remove, hslot]

lemma remove_eq_taken_none {s : MemoryStorage T} {id : Id} {v₀ : T}
    (hslot : s.storage[id.idx]? = some (Slot.Taken v₀))
    (hlf : s.last_free_slot = none) :
    s.remove id = Except.ok (v₀,
      { s with storage := s.storage.set id.idx (Slot.NextFreeSlot none),
               taken_slots := s.taken_slots - 1,
               next_free_slot := some id.idx,
               last_free_slot := some id.idx }) := by
  simp only [remove, hslot, hlf]

lemma remove_eq_taken_some_oob {s : MemoryStorage T} {id : Id} {v₀ : T} {t : Nat}
    (hslot : s.storage[id.idx]? = some (Slot.Taken v₀))
    (hlf : s.last_free_slot = some t)
    (ht : (s.storage.set id.idx (Slot.NextFreeSlot none))[t]? = none) :
    s.remove id = Except.error
      { s with storage := s.storage.set id.idx (Slot.NextFreeSlot none),
               taken_slots := s.taken_slots - 1 } := by
  simp only [remove, hslot, hlf, ht]

lemma remove_eq_taken_some_free {s : MemoryStorage T} {id : Id} {v₀ : T}
    {t : Nat} {l' : Option Nat}
    (hslot : s.storage[id.idx]? = some (Slot.Taken v₀))
    (hlf : s.last_free_slot = some t)
    (ht : (s.storage.set id.idx (Slot.NextFreeSlot none))[t]? =
      some (Slot.NextFreeSlot l')) :
    s.remove id = Except.ok (v₀,
      { s with storage := (s.storage.set id.idx (Slot.NextFreeSlot none)).set t
                 (Slot.NextFreeSlot (some id.idx)),
               taken_slots := s.taken_slots - 1,
               last_free_slot := some id.idx }) := by
  simp only [remove, hslot, hlf, ht]

lemma remove_eq_taken_some_taken {s : MemoryStorage T} {id : Id} {v₀ w : T}
    {t : Nat}
    (hslot : s.storage[id.idx]? = some (Slot.Taken v₀))
    (hlf : s.last_free_slot = some t)
    (ht : (s.storage.set id.idx (Slot.NextFreeSlot none))[t]? =
      some (Slot.Taken w)) :
    s.remove id = Except.ok (v₀,
      { s with storage := s.storage.set id.idx (Slot.NextFreeSlot none),
               taken_slots := s.taken_slots - 1,
               last_free_slot := some id.idx }) := by
  simp only [remove, hslot, hlf, ht]

lemma remove_WF {s : MemoryStorage T} (hwf : WF s) {id : Id} {v : T}
    {s' : MemoryStorage T} (hres : s.remove id = Except.ok (v, s')) :
    WF s' ∧ s'.capacity = s.capacity ∧ s'.taken_slots + 1 = s.taken_slots := by
  obtain ⟨is, hchain, hlast, hnd, hmem, hlen, hcount⟩ := hwf
  cases hslot : s.storage[id.idx]? with
  | none =>
    rw [remove_eq_oob hslot] at hres
    cases hres
  | some slot =>
    cases slot with
    | NextFreeSlot l0 =>
      rw [remove_eq_free hslot] at hres
      cases hres
    | Taken v₀ =>
      have hid_lt : id.idx < s.storage.length := (List.getElem?_eq_some.mp hslot).1
      have hid_notmem : id.idx ∉ is := by
        intro hmem'
        obtain ⟨l', hl'⟩ := hchain.mem_free _ hmem'
        rw [hslot] at hl'
        simp at hl'
      have hcnt1 := countTaken_set s.storage id.idx (Slot.NextFreeSlot none) _ hslot
      simp only [Slot.is_taken] at hcnt1
      simp at hcnt1
      have hid_self : (s.storage.set id.idx (Slot.NextFreeSlot none))[id.idx]? =
          some (Slot.NextFreeSlot none) :=
        List.getElem?_set_eq_of_lt _ hid_lt
      cases hlf : s.last_free_slot with
      | none =>
        have his : is = [] := getLast?_eq_none (by rw [← hlast, hlf])
        subst his
        have hhead : s.next_free_slot = none := hchain.head_none
        rw [remove_eq_taken_none hslot hlf] at hres
        rw [Except.ok.injEq, Prod.mk.injEq] at hres
        obtain ⟨rfl, rfl⟩ := hres
        refine ⟨⟨[id.idx], ?_, by simp, by simp, ?_, ?_, ?_⟩, rfl, ?_⟩
        · exact FreeChain.cons hid_self FreeChain.nil
        · intro j l' hj
          by_cases hjid : j = id.idx
          · simp [hjid]
          · rw [List.getElem?_set_ne (fun e => hjid e.symm)] at hj
            exact absurd (hmem j l' hj) (by simp)
        · show (s.storage.set id.idx (Slot.NextFreeSlot none)).length = s.capacity
          simpa [List.length_set] using hlen
        · show s.taken_slots - 1 =
            countTaken (s.storage.set id.idx (Slot.NextFreeSlot none))
          omega
        · show s.taken_slots - 1 + 1 = s.taken_slots
          omega
      | some t =>
        have hlast' : is.getLast? = some t := by rw [← hlast, hlf]
        have ht_mem : t ∈ is := mem_of_getLast? hlast'
        have ht_ne : t ≠ id.idx := fun e => hid_notmem (e ▸ ht_mem)
        obtain ⟨lt, hlt⟩ := hchain.mem_free _ ht_mem
        have ht_lt : t < s.storage.length := (List.getElem?_eq_some.mp hlt).1
        have ht1 : (s.storage.set id.idx (Slot.NextFreeSlot none))[t]? =
            some (Slot.NextFreeSlot lt) := by
          rw [List.getElem?_set_ne (fun e => ht_ne e.symm)]
          exact hlt
        rw [remove_eq_taken_some_free hslot hlf ht1] at hres
        rw [Except.ok.injEq, Prod.mk.injEq] at hres
        obtain ⟨rfl, rfl⟩ := hres
        have hcnt2 := countTaken_set (s.storage.set id.idx (Slot.NextFreeSlot none))
          t (Slot.NextFreeSlot (some id.idx)) _ ht1
        simp only [Slot.is_taken] at hcnt2
        simp at hcnt2
        refine ⟨⟨is ++ [id.idx], ?_, ?_, nodup_concat hnd hid_notmem, ?_, ?_, ?_⟩,
          rfl, ?_⟩
        · show FreeChain _ s.next_free_slot _
          refine hchain.append_tail hlast' hnd hid_notmem ?_ ?_ ?_
          · rw [List.getElem?_set_eq_of_lt _ (by simpa [List.length_set] using ht_lt)]
          · intro j hjmem hjt
            have hj_ne_id : j ≠ id.idx := fun e => hid_notmem (e ▸ hjmem)
            rw [List.getElem?_set_ne (fun e => hjt e.symm),
              List.getElem?_set_ne (fun e => hj_ne_id e.symm)]
          · rw [List.getElem?_set_ne ht_ne, List.getElem?_set_eq_of_lt _ hid_lt]
        · show some id.idx = _
          rw [List.getLast?_concat]
        · intro j l' hj
          by_cases hjt : j = t
          · subst hjt
            exact List.mem_append_left _ ht_mem
          · rw [List.getElem?_set_ne (fun e => hjt e.symm)] at hj
            by_cases hjid : j = id.idx
            · subst hjid
              simp
            · rw [List.getElem?_set_ne (fun e => hjid e.symm)] at hj
              exact List.mem_append_left _ (hmem j l' hj)
        · show ((s.storage.set id.idx (Slot.NextFreeSlot none)).set t
              (Slot.NextFreeSlot (some id.idx))).length = s.capacity
          simpa [List.length_set] using hlen
        · show s.taken_slots - 1 =
            countTaken ((s.storage.set id.idx (Slot.NextFreeSlot none)).set t
              (Slot.NextFreeSlot (some id.idx)))
          omega
        · show s.taken_slots - 1 + 1 = s.taken_slots
          omega

lemma clear_WF {s : MemoryStorage T} (hwf : WF s) :
    ∃ s', s.clear = some s' ∧ WF s' := by
  obtain ⟨is, hchain, hlast, hnd, hmem, hlen, hcount⟩ := hwf
  by_cases hc : s.capacity = 0
  · exact ⟨s, by simp [clear, hc], is, hchain, hlast, hnd, hmem, hlen, hcount⟩
  · have hle : s.capacity ≤ s.storage.length := by omega
    have hget : ∀ j, ((setFreeLinks s.storage s.capacity).set (s.capacity - 1)
        (Slot.NextFreeSlot none))[j]? =
        if j < s.capacity then
          some (Slot.NextFreeSlot (if j + 1 < s.capacity then some (j + 1) else none))
        else none := by
      intro j
      by_cases hj1 : j = s.capacity - 1
      · subst hj1
        rw [List.getElem?_set_eq_of_lt _ (by rw [length_setFreeLinks]; omega)]
        rw [if_pos (by omega), if_neg (by omega)]
      · rw [List.getElem?_set_ne (fun e => hj1 e.symm), getElem?_setFreeLinks]
        by_cases hj2 : j < s.capacity
        · rw [if_pos ⟨hj2, by omega⟩, if_pos hj2, if_pos (by omega)]
        · rw [if_neg (by omega), if_neg hj2]
          exact List.getElem?_eq_none (by omega)
    refine ⟨_, by rw [clear, if_neg hc, if_pos hle], List.range' 0 s.capacity,
      ?_, ?_, List.nodup_range' 0 s.capacity 1 (by omega), ?_, ?_, ?_⟩
    · have hcons := freeChain_consecutive
        ((setFreeLinks s.storage s.capacity).set (s.capacity - 1)
          (Slot.NextFreeSlot none)) s.capacity s.capacity 0 (by omega)
        (fun j _ hj => by rw [hget, if_pos hj])
      rw [if_pos (by omega : 0 < s.capacity)] at hcons
      exact hcons
    · show some (s.capacity - 1) = _
      rw [getLast?_range' s.capacity 0 (by omega)]
      congr 1
      omega
    · intro j l hj
      show j ∈ List.range' 0 s.capacity
      rw [hget] at hj
      by_cases h : j < s.capacity
      · rw [List.mem_range'_1]; omega
      · rw [if_neg h] at hj; cases hj
    · show ((setFreeLinks s.storage s.capacity).set (s.capacity - 1)
        (Slot.NextFreeSlot none)).length = s.capacity
      rw [List.length_set, length_setFreeLinks]
      omega
    · show 0 = countTaken _
      refine (countTaken_eq_zero _ ?_).symm
      intro j v hj
      rw [hget] at hj
      by_cases h : j < s.capacity
      · rw [if_pos h] at hj; cases hj
      · rw [if_neg h] at hj; cases hj

lemma growth_range_eq (o n : Nat) : growth_range o n = (o, n - o) := by
  unfold growth_range
  by_cases h : o = 0
  · subst h; simp
  · simp [h]

lemma length_newSlots (si m : Nat) : (newSlots T si m).length = m := by
  simp [newSlots]

lemma getElem?_newSlots (si m k : Nat) :
    (newSlots T si m)[k]? =
      if k < m then some (Slot.NextFreeSlot (some (si + 1 + k))) else none := by
  rw [newSlots, List.getElem?_map]
  by_cases hk : k < m
  · rw [List.getElem?_range hk, if_pos hk]
    rfl
  · rw [List.getElem?_eq_none (by simpa using (by omega : m ≤ k)), if_neg hk]
    rfl

lemma grow_WF {s : MemoryStorage T} (hwf : WF s) (hn : s.next_free_slot = none)
    {n : Nat} (hcap : s.capacity < n) :
    ∃ s₂, s.grow n = some s₂ ∧ WF s₂ ∧ s₂.next_free_slot = some s.capacity ∧
      s₂.capacity = n ∧ s₂.taken_slots = s.taken_slots := by
  obtain ⟨is, hchain, hlast, hnd, hmem, hlen, hcount⟩ := hwf
  rw [hn] at hchain
  have his : is = [] := hchain.eq_nil
  subst his
  have hnofree : ∀ (j : Nat) (l : Option Nat),
      s.storage[j]? ≠ some (Slot.NextFreeSlot l) := by
    intro j l hj
    exact absurd (hmem j l hj) (by simp)
  have hlf : s.last_free_slot = none := by rw [hlast]; rfl
  have hlen₁ : (s.storage ++ newSlots T s.capacity (n - s.capacity)).length = n := by
    rw [List.length_append, length_newSlots, hlen]
    omega
  have hget₂ : ∀ j, ((s.storage ++ newSlots T s.capacity (n - s.capacity)).set
      ((s.storage ++ newSlots T s.capacity (n - s.capacity)).length - 1)
      (Slot.NextFreeSlot none))[j]? =
      if j < s.capacity then s.storage[j]?
      else if j < n then
        some (Slot.NextFreeSlot (if j + 1 < n then some (j + 1) else none))
      else none := by
    intro j
    rw [hlen₁]
    by_cases hj1 : j = n - 1
    · subst hj1
      rw [List.getElem?_set_eq_of_lt _ (by rw [hlen₁]; omega)]
      rw [if_neg (by omega), if_pos (by omega), if_neg (by omega)]
    · rw [List.getElem?_set_ne (fun e => hj1 e.symm), List.getElem?_append]
      by_cases hj2 : j < s.capacity
      · rw [if_pos (by omega), if_pos hj2]
      · rw [if_neg (by rw [hlen]; omega), getElem?_newSlots, if_neg hj2]
        by_cases hj3 : j < n
        · rw [if_pos (by rw [hlen]; omega), if_pos hj3, if_pos (by omega)]
          congr 3
          rw [hlen]
          omega
        · rw [if_neg (by rw [hlen]; omega), if_neg hj3]
  have hne : ¬ ((s.storage ++
      newSlots T (growth_range s.capacity n).1 (growth_range s.capacity n).2).length = 0) := by
    rw [growth_range_eq]
    rw [show ((s.capacity, n - s.capacity).1) = s.capacity from rfl,
      show ((s.capacity, n - s.capacity).2) = n - s.capacity from rfl, hlen₁]
    omega
  have hgrow : s.grow n = some
      { s with storage := ((s.storage ++ newSlots T s.capacity (n - s.capacity)).set
                 ((s.storage ++ newSlots T s.capacity (n - s.capacity)).length - 1)
                 (Slot.NextFreeSlot none)),
               next_free_slot := some s.capacity,
               last_free_slot := some (n - 1),
               capacity := n } := by
    rw [grow]
    simp only [growth_range_eq, hlf]
    rw [if_neg (by rw [hlen₁]; omega)]
  refine ⟨_, hgrow, ⟨List.range' s.capacity (n - s.capacity), ?_, ?_,
    List.nodup_range' _ _ 1 (by omega), ?_, ?_, ?_⟩, rfl, rfl, rfl⟩
  · have hcons := freeChain_consecutive _ n (n - s.capacity) s.capacity (by omega)
      (fun j hj0 hjn => by rw [hget₂, if_neg (by omega), if_pos hjn])
    rw [if_pos (by omega : 0 < n - s.capacity)] at hcons
    exact hcons
  · show some (n - 1) = _
    rw [getLast?_range' (n - s.capacity) s.capacity (by omega)]
    congr 1
    omega
  · intro j l hj
    show j ∈ List.range' s.capacity (n - s.capacity)
    rw [hget₂] at hj
    by_cases hj1 : j < s.capacity
    · rw [if_pos hj1] at hj
      exact absurd hj (hnofree j l)
    · rw [if_neg hj1] at hj
      by_cases hj2 : j < n
      · rw [List.mem_range'_1]; omega
      · rw [if_neg hj2] at hj; cases hj
  · show ((s.storage ++ newSlots T s.capacity (n - s.capacity)).set
        ((s.storage ++ newSlots T s.capacity (n - s.capacity)).length - 1)
        (Slot.NextFreeSlot none)).length = n
    rw [List.length_set, hlen₁]
  · show s.taken_slots = countTaken
      ((s.storage ++ newSlots T s.capacity (n - s.capacity)).set
        ((s.storage ++ newSlots T s.capacity (n - s.capacity)).length - 1)
        (Slot.NextFreeSlot none))
    have h₁ : (s.storage ++ newSlots T s.capacity
        (n - s.capacity))[(s.storage ++ newSlots T s.capacity (n - s.capacity)).length - 1]? =
        some (Slot.NextFreeSlot (some (s.capacity + 1 + (n - 1 - s.storage.length)))) := by
      rw [hlen₁, List.getElem?_append, if_neg (by rw [hlen]; omega),
        getElem?_newSlots, if_pos (by rw [hlen]; omega)]
    have hset := countTaken_set (s.storage ++ newSlots T s.capacity (n - s.capacity))
      ((s.storage ++ newSlots T s.capacity (n - s.capacity)).length - 1)
      (Slot.NextFreeSlot none) _ h₁
    simp only [Slot.is_taken, Bool.false_eq_true, if_false, Nat.add_zero] at hset
    have happ : countTaken (s.storage ++ newSlots T s.capacity (n - s.capacity)) =
        countTaken s.storage + countTaken (newSlots T s.capacity (n - s.capacity)) :=
      countTaken_append _ _
    have hns : countTaken (newSlots T s.capacity (n - s.capacity)) = 0 := by
      refine countTaken_eq_zero _ ?_
      intro j v hj
      rw [getElem?_newSlots] at hj
      by_cases h : j < n - s.capacity
      · rw [if_pos h] at hj; cases hj
      · rw [if_neg h] at hj; cases hj
    omega

lemma fill_eq_last {s : MemoryStorage T} {h : Nat}
    (hslot : s.storage[h]? = some (Slot.NextFreeSlot none)) (x : T) :
    s.fill_free_slot h x = some (⟨h⟩,
      { s with taken_slots := s.taken_slots + 1,
               next_free_slot := none, last_free_slot := none,
               storage := s.storage.set h (Slot.Taken x) }) := by
  simp only [fill_free_slot, hslot]

lemma fill_eq_mid {s : MemoryStorage T} {h l : Nat}
    (hslot : s.storage[h]? = some (Slot.NextFreeSlot (some l))) (x : T) :
    s.fill_free_slot h x = some (⟨h⟩,
      { s with taken_slots := s.taken_slots + 1,
               next_free_slot := some l,
               storage := s.storage.set h (Slot.Taken x) }) := by
  simp only [fill_free_slot, hslot]

lemma insert_eq_fill {s : MemoryStorage T} {h : Nat}
    (hh : s.next_free_slot = some h) (x : T) :
    s.insert x = (s.fill_free_slot h x).map (fun p => (Except.ok p.1, p.2)) := by
  simp only [insert, hh]

lemma insert_of_free {s : MemoryStorage T} {h : Nat} {l : Option Nat}
    (hh : s.next_free_slot = some h)
    (hslot : s.storage[h]? = some (Slot.NextFreeSlot l)) (x : T) :
    ∃ s', s.insert x = some (Except.ok ⟨h⟩, s') := by
  cases l with
  | none => exact ⟨_, by rw [insert_eq_fill hh, fill_eq_last hslot]; rfl⟩
  | some l' => exact ⟨_, by rw [insert_eq_fill hh, fill_eq_mid hslot]; rfl⟩

lemma push_WF {s : MemoryStorage T} (hwf : WF s) (x : T) {n : Nat}
    (hcap : s.capacity < n) :
    ∃ id s', s.push x n = some (id, s') ∧ WF s' := by
  cases hh : s.next_free_slot with
  | some h =>
    obtain ⟨s', hins, hwf', -, -, -⟩ := insert_WF hwf hh x
    exact ⟨⟨h⟩, s', by simp only [push, hins], hwf'⟩
  | none =>
    have hins := insert_full hh x
    obtain ⟨s₂, hg, hwf₂, hhead₂, -, -⟩ := grow_WF hwf hh hcap
    obtain ⟨s₃, hins₂, hwf₃, -, -, -⟩ := insert_WF hwf₂ hhead₂ x
    refine ⟨⟨s.capacity⟩, s₃, ?_, hwf₃⟩
    simp only [push, hins, hg, hins₂]

end MemoryStorage

/-- The states reachable from a freshly constructed storage through the
public mutators. The `push` step carries the Rust `Vec` growth guarantee
that a push performed at full capacity strictly enlarges the allocation. -/
inductive Reachable {T : Type} : MemoryStorage T → Prop where
  | array (S : Nat) : Reachable (new_with_array T S)
  | fixed_vec (c : Nat) : Reachable (new_with_fixed_capacity_vec T c)
  | vec (c : Nat) : Reachable (new_with_vec T c)
  | insert_step {s s' : MemoryStorage T} {x : T} {r} :
      Reachable s → s.insert x = some (r, s') → Reachable s'
  | remove_step {s s' : MemoryStorage T} {id : Id} {v : T} :
      Reachable s → s.remove id = Except.ok (v, s') → Reachable s'
  | clear_step {s s' : MemoryStorage T} :
      Reachable s → s.clear = some s' → Reachable s'
  | push_step {s s' : MemoryStorage T} {x : T} {id : Id} {new_capacity : Nat} :
      Reachable s → s.capacity < new_capacity →
      s.push x new_capacity = some (id, s') → Reachable s'

lemma Reachable.wf {T : Type} {s : MemoryStorage T} (h : Reachable s) : WF s := by
  induction h with
  | array S => rw [new_with_array_eq]; exact WF_new_with_vec T S
  | fixed_vec c => rw [new_with_fixed_capacity_vec_eq]; exact WF_new_with_vec T c
  | vec c => exact WF_new_with_vec T c
  | @insert_step s s' x r _ hins ih =>
    cases hh : s.next_free_slot with
    | none =>
      rw [MemoryStorage.insert_full hh x] at hins
      rw [Option.some.injEq, Prod.mk.injEq] at hins
      rw [← hins.2]
      exact ih
    | some hd =>
      obtain ⟨s'', hins', hwf'', -, -, -⟩ := MemoryStorage.insert_WF ih hh x
      rw [hins'] at hins
      rw [Option.some.injEq, Prod.mk.injEq] at hins
      rw [← hins.2]
      exact hwf''
  | remove_step _ hrem ih => exact (MemoryStorage.remove_WF ih hrem).1
  | clear_step _ hclear ih =>
    obtain ⟨s'', hclear', hwf''⟩ := MemoryStorage.clear_WF ih
    rw [hclear'] at hclear
    rw [Option.some.injEq] at hclear
    rw [← hclear]
    exact hwf''
  | push_step _ hcap hpush ih =>
    obtain ⟨id', s'', hpush', hwf''⟩ := MemoryStorage.push_WF ih _ hcap
    rw [hpush'] at hpush
    rw [Option.some.injEq, Prod.mk.injEq] at hpush
    rw [← hpush.2]
    exact hwf''

open MemoryStorage

/-- C4: for every state reachable from a freshly constructed storage by
insert, remove, push and clear, `taken_slots()` equals `capacity()` minus the
number of Free slots in the buffer, and `taken_slots()` is at most
`capacity()`. -/
theorem c4_taken_slots_invariant (T : Type) (s : MemoryStorage T)
    (h : Reachable s) :
    s.taken_slots = s.capacity - countFree s.storage ∧
    s.taken_slots ≤ s.capacity := by
  obtain ⟨is, -, -, -, -, hlen, hcount⟩ := h.wf
  have hsum := countTaken_add_countFree s.storage
  constructor <;> omega

/-- C4 witness: the invariant instantiated on a concrete reachable state. -/
theorem c4_taken_slots_invariant_witness :
    (new_with_vec Nat 3).taken_slots =
      (new_with_vec Nat 3).capacity - countFree (new_with_vec Nat 3).storage ∧
    (new_with_vec Nat 3).taken_slots ≤ (new_with_vec Nat 3).capacity :=
  c4_taken_slots_invariant Nat (new_with_vec Nat 3) (Reachable.vec 3)

/-- C5: insert on a storage whose free-list head is `None` returns the
storage-full failure carrying the rejected value back unmodified and leaves
the whole engine state unchanged; concretely, a fixed-capacity-3 instance
accepts three values under distinct ids 0, 1, 2 and rejects a fourth,
handing the value 40 back with `taken_slots` still 3. -/
theorem c5_insert_exhaustion :
    (∀ (T : Type) (s : MemoryStorage T) (x : T),
      s.next_free_slot = none →
      s.insert x = some (Except.error ⟨x⟩, s)) ∧
    (∃ sa sb sc : MemoryStorage Nat,
      (new_with_fixed_capacity_vec Nat 3).insert 10 = some (Except.ok ⟨0⟩, sa) ∧
      sa.insert 20 = some (Except.ok ⟨1⟩, sb) ∧
      sb.insert 30 = some (Except.ok ⟨2⟩, sc) ∧
      (⟨0⟩ : Id) ≠ ⟨1⟩ ∧ (⟨0⟩ : Id) ≠ ⟨2⟩ ∧ (⟨1⟩ : Id) ≠ ⟨2⟩ ∧
      sc.insert 40 = some (Except.error ⟨40⟩, sc) ∧
      sc.taken_slots = 3) := by
  constructor
  · intro T s x hn
    exact insert_full hn x
  · exact ⟨_, _, _, rfl, rfl, rfl, by decide, by decide, by decide, rfl, rfl⟩

/-- C5 witness: the general exhaustion branch applied at a concrete full
storage. -/
theorem c5_insert_exhaustion_witness :
    ({ storage := [Slot.Taken 7], next_free_slot := none,
       last_free_slot := none, taken_slots := 1, capacity := 1 } :
      MemoryStorage Nat).insert 42 =
      some (Except.error ⟨42⟩,
        { storage := [Slot.Taken 7], next_free_slot := none,
          last_free_slot := none, taken_slots := 1, capacity := 1 }) :=
  c5_insert_exhaustion.1 Nat _ 42 rfl

/-- C9: on every reachable growable-storage state, as soon as the buffer
provider yields a strictly larger allocation, `push` returns an id: no panic
path is taken, in particular the retried insert after growth cannot hit its
exhaustion branch. -/
theorem c9_push_total (T : Type) (s : MemoryStorage T) (x : T) (n : Nat)
    (hr : Reachable s) (hn : s.capacity < n) :
    ∃ id s', s.push x n = some (id, s') := by
  obtain ⟨id, s', hp, -⟩ := push_WF hr.wf x hn
  exact ⟨id, s', hp⟩

/-- C9 witness: push on a freshly constructed zero-capacity growable storage
with the provider growing the allocation to 4. -/
theorem c9_push_total_witness :
    ∃ id s', (new_with_vec Nat 0).push 5 4 = some (id, s') :=
  c9_push_total Nat (new_with_vec Nat 0) 5 4 (Reachable.vec 0) (by decide)

/-- C10: constructing a storage with capacity 0 through any of the three
constructors yields head and tail both `None`, `capacity() = 0` and
`taken_slots() = 0` (the three constructors produce identical states), and
on any state with head `None` every insert immediately fails with the
storage-full error carrying the value back, leaving the state unchanged. -/
theorem c10_zero_capacity :
    (∀ T : Type, new_with_array T 0 = new_with_vec T 0 ∧
      new_with_fixed_capacity_vec T 0 = new_with_vec T 0) ∧
    (∀ T : Type,
      (new_with_vec T 0).next_free_slot = none ∧
      (new_with_vec T 0).last_free_slot = none ∧
      (new_with_vec T 0).capacity = 0 ∧
      (new_with_vec T 0).taken_slots = 0) ∧
    (∀ (T : Type) (s : MemoryStorage T) (x : T),
      s.next_free_slot = none →
      s.insert x = some (Except.error ⟨x⟩, s)) := by
  refine ⟨fun T => ⟨rfl, rfl⟩, fun T => ⟨rfl, rfl, rfl, rfl⟩, ?_⟩
  intro T s x hn
  exact insert_full hn x

/-- C10 witness: a concrete insert on the zero-capacity state fails and
hands the value back. -/
theorem c10_zero_capacity_witness :
    (new_with_vec Nat 0).insert 9 =
      some (Except.error ⟨9⟩, new_with_vec Nat 0) :=
  c10_zero_capacity.2.2 Nat (new_with_vec Nat 0) 9 rfl

/-- C8: `get` and `get_mut` bounds-check the index: out of range or a Free
slot give the empty result (they are total functions, never a fatal error),
and they return the stored value exactly when the in-range slot is Taken;
`get_mut` agrees with `get`. -/
theorem c8_get_bounds (T : Type) (s : MemoryStorage T) (id : Id) :
    (s.storage.length ≤ id.idx → s.get id = none ∧ s.get_mut id = none) ∧
    (∀ l, s.storage[id.idx]? = some (Slot.NextFreeSlot l) →
      s.get id = none ∧ s.get_mut id = none) ∧
    (∀ v, s.get id = some v ↔ s.storage[id.idx]? = some (Slot.Taken v)) ∧
    s.get_mut id = s.get id := by
  refine ⟨?_, ?_, ?_, ?_⟩
  · intro hle
    rw [MemoryStorage.get, MemoryStorage.get_mut, List.getElem?_eq_none hle]
    exact ⟨rfl, rfl⟩
  · intro l hl
    rw [MemoryStorage.get, MemoryStorage.get_mut, hl]
    exact ⟨rfl, rfl⟩
  · intro v
    rw [MemoryStorage.get]
    cases hl : s.storage[id.idx]? with
    | none => simp
    | some slot =>
      cases slot with
      | Taken w => simp [Slot.taken]
      | NextFreeSlot l => simp [Slot.taken]
  · rw [MemoryStorage.get, MemoryStorage.get_mut]
    cases hl : s.storage[id.idx]? with
    | none => rfl
    | some slot => cases slot <;> rfl

/-- C8 witness: the out-of-range case applied on a concrete storage. -/
theorem c8_get_bounds_witness :
    (new_with_vec Nat 2).get ⟨5⟩ = none ∧
    (new_with_vec Nat 2).get_mut ⟨5⟩ = none :=
  (c8_get_bounds Nat (new_with_vec Nat 2) ⟨5⟩).1 (by decide)

/-- C6 counterexample: on a freshly constructed capacity-2 storage (both
slots Free), `remove` of id 0 is a contract violation and signals the fatal
failure — but the buffer at the moment the panic fires is already modified:
slot 0's free-list link `Some 1` has been overwritten by the `Free(None)`
placeholder, so the claim that the buffer is unchanged is false. -/
theorem c6_remove_counterexample :
    (new_with_fixed_capacity_vec Nat 2).remove ⟨0⟩ =
      Except.error
        { storage := [Slot.NextFreeSlot none, Slot.NextFreeSlot none],
          next_free_slot := some 0, last_free_slot := some 1,
          taken_slots := 0, capacity := 2 } ∧
    [Slot.NextFreeSlot (T := Nat) none, Slot.NextFreeSlot none] ≠
      (new_with_fixed_capacity_vec Nat 2).storage := by
  exact ⟨rfl, by decide⟩

/-- C6 amended: insert either fully commits or, on exhaustion, returns the
error with the state untouched; remove on a slot that is not Taken signals
its fatal failure with head, tail, taken_slots and capacity unchanged, but
with the slot at the given index — when it is in range — already overwritten
by the `Free(None)` placeholder; the rest of the buffer is unchanged. -/
theorem c6_mutator_atomicity_amended :
    (∀ (T : Type) (s : MemoryStorage T) (x : T),
      s.next_free_slot = none →
      s.insert x = some (Except.error ⟨x⟩, s)) ∧
    (∀ (T : Type) (s : MemoryStorage T) (id : Id),
      (∀ v : T, s.storage[id.idx]? ≠ some (Slot.Taken v)) →
      ∃ s', s.remove id = Except.error s' ∧
        s'.next_free_slot = s.next_free_slot ∧
        s'.last_free_slot = s.last_free_slot ∧
        s'.taken_slots = s.taken_slots ∧
        s'.capacity = s.capacity ∧
        (s'.storage = s.storage ∨
          s'.storage = s.storage.set id.idx (Slot.NextFreeSlot none))) := by
  constructor
  · intro T s x hn
    exact insert_full hn x
  · intro T s id hnt
    cases hslot : s.storage[id.idx]? with
    | none =>
      exact ⟨s, remove_eq_oob hslot, rfl, rfl, rfl, rfl, Or.inl rfl⟩
    | some slot =>
      cases slot with
      | Taken v => exact absurd hslot (hnt v)
      | NextFreeSlot l =>
        exact ⟨_, remove_eq_free hslot, rfl, rfl, rfl, rfl, Or.inr rfl⟩

/-- C6 witness: the amended remove clause applied at a concrete state whose
slot 0 is Free. -/
theorem c6_mutator_atomicity_amended_witness :
    ∃ s', (new_with_fixed_capacity_vec Nat 2).remove ⟨0⟩ = Except.error s' ∧
      s'.next_free_slot = (new_with_fixed_capacity_vec Nat 2).next_free_slot ∧
      s'.last_free_slot = (new_with_fixed_capacity_vec Nat 2).last_free_slot ∧
      s'.taken_slots = (new_with_fixed_capacity_vec Nat 2).taken_slots ∧
      s'.capacity = (new_with_fixed_capacity_vec Nat 2).capacity ∧
      (s'.storage = (new_with_fixed_capacity_vec Nat 2).storage ∨
        s'.storage = (new_with_fixed_capacity_vec Nat 2).storage.set 0
          (Slot.NextFreeSlot none)) :=
  c6_mutator_atomicity_amended.2 Nat (new_with_fixed_capacity_vec Nat 2) ⟨0⟩
    (fun v h => by
      have h2 : (some (Slot.NextFreeSlot (some 1)) : Option (Slot Nat)) =
          some (Slot.Taken v) := h
      cases h2)

/-- C2 counterexample: a growth step performed while `tail = some 0` (which
requires an inconsistent head/tail pair, the only way growth can see a
non-`None` tail) leaves `last_free_slot` at `some 0`; the claim that it is
set to `some (new_capacity - 1) = some 1` is false at this input. -/
theorem c2_grow_tail_counterexample :
    ({ storage := [Slot.NextFreeSlot none], next_free_slot := none,
       last_free_slot := some 0, taken_slots := 0, capacity := 1 } :
      MemoryStorage Nat).grow 2 =
      some { storage := [Slot.NextFreeSlot (some 1), Slot.NextFreeSlot none],
             next_free_slot := none, last_free_slot := some 0,
             taken_slots := 0, capacity := 2 } ∧
    (some 0 : Option Nat) ≠ some (2 - 1) := by
  exact ⟨rfl, by decide⟩

/-- C2 amended: when the growth extension runs while `tail = some t`, it
overwrites slot `t`'s link to `Some(old_capacity)` but does not update the
tail: `last_free_slot` stays `some t` (the code never assigns
`some (new_capacity - 1)` in this branch). -/
theorem c2_grow_tail_amended (T : Type) (s : MemoryStorage T) (t n : Nat)
    (s₂ : MemoryStorage T) (hlf : s.last_free_slot = some t)
    (hg : s.grow n = some s₂) :
    s₂.storage[t]? = some (Slot.NextFreeSlot (some s.capacity)) ∧
    s₂.last_free_slot = some t := by
  by_cases hne : (s.storage ++ newSlots T s.capacity (n - s.capacity)).length = 0
  · rw [grow] at hg
    simp only [growth_range_eq] at hg
    rw [if_pos hne] at hg
    cases hg
  · cases ht : ((s.storage ++ newSlots T s.capacity (n - s.capacity)).set
        ((s.storage ++ newSlots T s.capacity (n - s.capacity)).length - 1)
        (Slot.NextFreeSlot none))[t]? with
    | none =>
      rw [grow] at hg
      simp only [growth_range_eq, hlf, ht] at hg
      rw [if_neg hne] at hg
      cases hg
    | some w =>
      rw [grow] at hg
      simp only [growth_range_eq, hlf, ht] at hg
      rw [if_neg hne] at hg
      rw [Option.some.injEq] at hg
      subst hg
      refine ⟨?_, rfl⟩
      show (((s.storage ++ newSlots T s.capacity (n - s.capacity)).set
        ((s.storage ++ newSlots T s.capacity (n - s.capacity)).length - 1)
        (Slot.NextFreeSlot none)).set t (Slot.NextFreeSlot (some s.capacity)))[t]? = _
      rw [List.getElem?_set_eq_of_lt _ (List.getElem?_eq_some.mp ht).1]

/-- C2 amended witness: the amended growth-splice behaviour at the concrete
tail-`some 0` input. -/
theorem c2_grow_tail_amended_witness :
    ({ storage := [Slot.NextFreeSlot (some 1), Slot.NextFreeSlot none],
       next_free_slot := none, last_free_slot := some 0,
       taken_slots := 0, capacity := 2 } :
      MemoryStorage Nat).storage[0]? = some (Slot.NextFreeSlot (some 1)) ∧
    ({ storage := [Slot.NextFreeSlot (some 1), Slot.NextFreeSlot none],
       next_free_slot := none, last_free_slot := some 0,
       taken_slots := 0, capacity := 2 } :
      MemoryStorage Nat).last_free_slot = some 0 :=
  c2_grow_tail_amended Nat
    { storage := [Slot.NextFreeSlot none], next_free_slot := none,
      last_free_slot := some 0, taken_slots := 0, capacity := 1 }
    0 2 _ rfl rfl

/-- C1: FIFO free-list discipline. First conjunct: across a remove/insert
pair with no other activity on a storage whose free list is non-empty (head
`h`, tail `t` in range, slot `h` Free), the insert returns the pre-remove
head `h` — the oldest still-free slot — which is never the just-freed index.
Second conjunct: when the free list was empty, the insert returns exactly
the just-freed index. Third conjunct, concretely: fill a fixed-capacity-3
storage (ids 0, 1, 2), remove id 1 then id 0; the next two inserts return
ids 1 then 0, in that order. -/
theorem c1_fifo_reuse :
    (∀ (T : Type) (s : MemoryStorage T) (id : Id) (h t : Nat) (v x : T)
        (s₁ : MemoryStorage T),
      s.next_free_slot = some h →
      (∃ l, s.storage[h]? = some (Slot.NextFreeSlot l)) →
      s.last_free_slot = some t → t < s.storage.length →
      s.remove id = Except.ok (v, s₁) →
      (∃ s₂, s₁.insert x = some (Except.ok ⟨h⟩, s₂)) ∧ h ≠ id.idx) ∧
    (∀ (T : Type) (s : MemoryStorage T) (id : Id) (v x : T)
        (s₁ : MemoryStorage T),
      s.next_free_slot = none → s.last_free_slot = none →
      s.remove id = Except.ok (v, s₁) →
      ∃ s₂, s₁.insert x = some (Except.ok ⟨id.idx⟩, s₂)) ∧
    (∃ sa sb sc sd se sf sg : MemoryStorage Nat,
      (new_with_fixed_capacity_vec Nat 3).insert 10 = some (Except.ok ⟨0⟩, sa) ∧
      sa.insert 20 = some (Except.ok ⟨1⟩, sb) ∧
      sb.insert 30 = some (Except.ok ⟨2⟩, sc) ∧
      sc.remove ⟨1⟩ = Except.ok (20, sd) ∧
      sd.remove ⟨0⟩ = Except.ok (10, se) ∧
      se.insert 40 = some (Except.ok ⟨1⟩, sf) ∧
      sf.insert 50 = some (Except.ok ⟨0⟩, sg)) := by
  refine ⟨?_, ?_, ?_⟩
  · intro T s id h t v x s₁ hh ⟨l, hslot⟩ hlf ht hrem
    cases hslotid : s.storage[id.idx]? with
    | none =>
      rw [remove_eq_oob hslotid] at hrem
      cases hrem
    | some slot =>
      cases slot with
      | NextFreeSlot l0 =>
        rw [remove_eq_free hslotid] at hrem
        cases hrem
      | Taken v₀ =>
        have hne : h ≠ id.idx := by
          intro e
          rw [e, hslotid] at hslot
          cases hslot
        refine ⟨?_, hne⟩
        have ht' : t < (s.storage.set id.idx (Slot.NextFreeSlot none)).length := by
          rwa [List.length_set]
        cases hw : (s.storage.set id.idx (Slot.NextFreeSlot none))[t]? with
        | none =>
          rw [List.getElem?_eq_none_iff] at hw
          omega
        | some w =>
          cases w with
          | NextFreeSlot lw =>
            rw [remove_eq_taken_some_free hslotid hlf hw] at hrem
            rw [Except.ok.injEq, Prod.mk.injEq] at hrem
            obtain ⟨rfl, rfl⟩ := hrem
            refine insert_of_free (h := h)
              (l := if h = t then some id.idx else l) ?_ ?_ x
            · exact hh
            show (((s.storage.set id.idx (Slot.NextFreeSlot none)).set t
              (Slot.NextFreeSlot (some id.idx))))[h]? = _
            by_cases hht : h = t
            · subst hht
              rw [List.getElem?_set_eq_of_lt _ ht', if_pos rfl]
            · rw [List.getElem?_set_ne (fun e => hht e.symm),
                List.getElem?_set_ne (fun e => hne e.symm), if_neg hht]
              exact hslot
          | Taken w0 =>
            rw [remove_eq_taken_some_taken hslotid hlf hw] at hrem
            rw [Except.ok.injEq, Prod.mk.injEq] at hrem
            obtain ⟨rfl, rfl⟩ := hrem
            refine insert_of_free (h := h) (l := l) ?_ ?_ x
            · exact hh
            show ((s.storage.set id.idx (Slot.NextFreeSlot none)))[h]? = _
            rw [List.getElem?_set_ne (fun e => hne e.symm)]
            exact hslot
  · intro T s id v x s₁ hh hlf hrem
    cases hslotid : s.storage[id.idx]? with
    | none =>
      rw [remove_eq_oob hslotid] at hrem
      cases hrem
    | some slot =>
      cases slot with
      | NextFreeSlot l0 =>
        rw [remove_eq_free hslotid] at hrem
        cases hrem
      | Taken v₀ =>
        rw [remove_eq_taken_none hslotid hlf] at hrem
        rw [Except.ok.injEq, Prod.mk.injEq] at hrem
        obtain ⟨rfl, rfl⟩ := hrem
        refine insert_of_free (h := id.idx) (l := none) ?_ ?_ x
        · exact rfl
        show ((s.storage.set id.idx (Slot.NextFreeSlot none)))[id.idx]? = _
        exact List.getElem?_set_eq_of_lt _ (List.getElem?_eq_some.mp hslotid).1
  · exact ⟨_, _, _, _, _, _, _, rfl, rfl, rfl, rfl, rfl, rfl, rfl⟩

/-- C1 witness: the FIFO clause applied at a concrete state with free list
`1 → none`, removing id 0: the next insert still returns id 1. -/
theorem c1_fifo_reuse_witness :
    (∃ s₂, ({ storage := [Slot.NextFreeSlot none, Slot.NextFreeSlot (some 0),
                          Slot.Taken 30],
              next_free_slot := some 1, last_free_slot := some 0,
              taken_slots := 1, capacity := 3 } :
        MemoryStorage Nat).insert 99 = some (Except.ok ⟨1⟩, s₂)) ∧
    (1 : Nat) ≠ (⟨0⟩ : Id).idx :=
  c1_fifo_reuse.1 Nat
    { storage := [Slot.Taken 10, Slot.NextFreeSlot none, Slot.Taken 30],
      next_free_slot := some 1, last_free_slot := some 1,
      taken_slots := 2, capacity := 3 }
    ⟨0⟩ 1 1 10 99 _ rfl ⟨none, rfl⟩ rfl (by decide) rfl

/-- C3: the two-branch `(starting_index, slots_to_insert)` computation in the
source equals the canonical policy `(old_capacity, new_capacity -
old_capacity)` for all inputs — in particular when `old_capacity = 0` — and,
whenever the growth extension runs on a state whose buffer length matches its
capacity (with a in-range tail, if any) and the provider grants a strictly
larger allocation, the grown buffer has length `new_capacity` and every index
of `[old_capacity, new_capacity)` holds a freshly populated Free slot. -/
theorem c3_growth_range_canonical_policy :
    (∀ old_capacity new_capacity : Nat,
      growth_range old_capacity new_capacity =
        growth_range_canonical old_capacity new_capacity) ∧
    (∀ (T : Type) (s : MemoryStorage T) (n : Nat),
      s.storage.length = s.capacity →
      (∀ t, s.last_free_slot = some t → t < s.capacity) →
      s.capacity < n →
      ∃ s₂, s.grow n = some s₂ ∧ s₂.storage.length = n ∧
        ∀ j, s.capacity ≤ j → j < n →
          ∃ l, s₂.storage[j]? = some (Slot.NextFreeSlot l)) := by
  constructor
  · intro o n
    rw [growth_range_eq]
    rfl
  · intro T s n hlen htail hcap
    have hlen₁ : (s.storage ++ newSlots T s.capacity (n - s.capacity)).length = n := by
      rw [List.length_append, length_newSlots, hlen]
      omega
    have hne : ¬ ((s.storage ++ newSlots T s.capacity (n - s.capacity)).length = 0) := by
      omega
    have hreg : ∀ j, s.capacity ≤ j → j < n →
        ∃ l, ((s.storage ++ newSlots T s.capacity (n - s.capacity)).set
          ((s.storage ++ newSlots T s.capacity (n - s.capacity)).length - 1)
          (Slot.NextFreeSlot none))[j]? = some (Slot.NextFreeSlot l) := by
      intro j hj1 hj2
      by_cases hj3 : j = (s.storage ++ newSlots T s.capacity (n - s.capacity)).length - 1
      · subst hj3
        exact ⟨none, List.getElem?_set_eq_of_lt _ (by omega)⟩
      · rw [List.getElem?_set_ne (fun e => hj3 e.symm), List.getElem?_append,
          if_neg (by omega), getElem?_newSlots, if_pos (by omega)]
        exact ⟨_, rfl⟩
    cases hlf : s.last_free_slot with
    | none =>
      have hg : s.grow n = some
          { s with storage := ((s.storage ++ newSlots T s.capacity (n - s.capacity)).set
                     ((s.storage ++ newSlots T s.capacity (n - s.capacity)).length - 1)
                     (Slot.NextFreeSlot none)),
                   next_free_slot := some s.capacity,
                   last_free_slot := some (n - 1),
                   capacity := n } := by
        rw [grow]
        simp only [growth_range_eq, hlf]
        rw [if_neg hne]
      refine ⟨_, hg, ?_, ?_⟩
      · show ((s.storage ++ newSlots T s.capacity (n - s.capacity)).set
          ((s.storage ++ newSlots T s.capacity (n - s.capacity)).length - 1)
          (Slot.NextFreeSlot none)).length = n
        rw [List.length_set, hlen₁]
      · exact hreg
    | some t =>
      have ht : t < s.capacity := htail t hlf
      have htlt : t < ((s.storage ++ newSlots T s.capacity (n - s.capacity)).set
          ((s.storage ++ newSlots T s.capacity (n - s.capacity)).length - 1)
          (Slot.NextFreeSlot none)).length := by
        rw [List.length_set, hlen₁]
        omega
      have hg : s.grow n = some
          { s with storage := (((s.storage ++ newSlots T s.capacity (n - s.capacity)).set
                     ((s.storage ++ newSlots T s.capacity (n - s.capacity)).length - 1)
                     (Slot.NextFreeSlot none)).set t
                     (Slot.NextFreeSlot (some s.capacity))),
                   capacity := n } := by
        rw [grow]
        simp only [growth_range_eq, hlf, List.getElem?_eq_getElem htlt]
        rw [if_neg hne]
      refine ⟨_, hg, ?_, ?_⟩
      · show (((s.storage ++ newSlots T s.capacity (n - s.capacity)).set
          ((s.storage ++ newSlots T s.capacity (n - s.capacity)).length - 1)
          (Slot.NextFreeSlot none)).set t
          (Slot.NextFreeSlot (some s.capacity))).length = n
        rw [List.length_set, List.length_set, hlen₁]
      · intro j hj1 hj2
        show ∃ l, ((((s.storage ++ newSlots T s.capacity (n - s.capacity)).set
          ((s.storage ++ newSlots T s.capacity (n - s.capacity)).length - 1)
          (Slot.NextFreeSlot none)).set t
          (Slot.NextFreeSlot (some s.capacity))))[j]? = some (Slot.NextFreeSlot l)
        rw [List.getElem?_set_ne (by omega : t ≠ j)]
        exact hreg j hj1 hj2

/-- C3 witness: the growth-region clause applied to a concrete zero-capacity
growable storage grown to capacity 2. -/
theorem c3_growth_range_canonical_policy_witness :
    ∃ s₂, (new_with_vec Nat 0).grow 2 = some s₂ ∧ s₂.storage.length = 2 ∧
      ∀ j, (new_with_vec Nat 0).capacity ≤ j → j < 2 →
        ∃ l, s₂.storage[j]? = some (Slot.NextFreeSlot l) :=
  c3_growth_range_canonical_policy.2 Nat (new_with_vec Nat 0) 2 rfl
    (fun t ht => nomatch ht) (by decide)

/-- C7: round trip. On every storage with a free slot at the head of the
free list (tail in range, if any), `insert x` returns an id `k` with
`get k = x` immediately after; `remove k` then hands `x` back by ownership
transfer, with `capacity` unchanged throughout and `taken_slots` incremented
by the insert and decremented back by the removal. -/
theorem c7_round_trip (T : Type) (s : MemoryStorage T) (x : T) (h : Nat)
    (hh : s.next_free_slot = some h)
    (hfree : ∃ l, s.storage[h]? = some (Slot.NextFreeSlot l))
    (htail : ∀ t, s.last_free_slot = some t → t < s.storage.length) :
    ∃ s₁ s₂, s.insert x = some (Except.ok ⟨h⟩, s₁) ∧
      s₁.get ⟨h⟩ = some x ∧
      s₁.remove ⟨h⟩ = Except.ok (x, s₂) ∧
      s₁.capacity = s.capacity ∧ s₂.capacity = s.capacity ∧
      s₁.taken_slots = s.taken_slots + 1 ∧
      s₂.taken_slots = s₁.taken_slots - 1 := by
  obtain ⟨l, hslot⟩ := hfree
  have hlt : h < s.storage.length := (List.getElem?_eq_some.mp hslot).1
  have hget : ((s.storage.set h (Slot.Taken x))[h]?).bind Slot.taken = some x := by
    rw [List.getElem?_set_eq_of_lt _ hlt]
    rfl
  have hsetslot : (s.storage.set h (Slot.Taken x))[h]? = some (Slot.Taken x) :=
    List.getElem?_set_eq_of_lt _ hlt
  cases l with
  | none =>
    have hins : s.insert x = some (Except.ok ⟨h⟩,
        { s with taken_slots := s.taken_slots + 1,
                 next_free_slot := none, last_free_slot := none,
                 storage := s.storage.set h (Slot.Taken x) }) := by
      rw [insert_eq_fill hh, fill_eq_last hslot]
      rfl
    have hrem := @remove_eq_taken_none T
      { s with taken_slots := s.taken_slots + 1,
               next_free_slot := none, last_free_slot := none,
               storage := s.storage.set h (Slot.Taken x) }
      ⟨h⟩ x hsetslot rfl
    exact ⟨_, _, hins, hget, hrem, rfl, rfl, rfl, rfl⟩
  | some l' =>
    have hins : s.insert x = some (Except.ok ⟨h⟩,
        { s with taken_slots := s.taken_slots + 1,
                 next_free_slot := some l',
                 storage := s.storage.set h (Slot.Taken x) }) := by
      rw [insert_eq_fill hh, fill_eq_mid hslot]
      rfl
    cases hlf : s.last_free_slot with
    | none =>
      have hrem := @remove_eq_taken_none T
        { s with taken_slots := s.taken_slots + 1,
                 next_free_slot := some l',
                 storage := s.storage.set h (Slot.Taken x) }
        ⟨h⟩ x hsetslot hlf
      exact ⟨_, _, hins, hget, hrem, rfl, rfl, rfl, rfl⟩
    | some t =>
      have ht : t < s.storage.length := htail t hlf
      cases hw : ((s.storage.set h (Slot.Taken x)).set h
          (Slot.NextFreeSlot none))[t]? with
      | none =>
        rw [List.getElem?_eq_none_iff] at hw
        rw [List.length_set, List.length_set] at hw
        omega
      | some w =>
        cases w with
        | NextFreeSlot lw =>
          have hrem := @remove_eq_taken_some_free T
            { s with taken_slots := s.taken_slots + 1,
                     next_free_slot := some l',
                     storage := s.storage.set h (Slot.Taken x) }
            ⟨h⟩ x t lw hsetslot hlf hw
          exact ⟨_, _, hins, hget, hrem, rfl, rfl, rfl, rfl⟩
        | Taken w0 =>
          have hrem := @remove_eq_taken_some_taken T
            { s with taken_slots := s.taken_slots + 1,
                     next_free_slot := some l',
                     storage := s.storage.set h (Slot.Taken x) }
            ⟨h⟩ x w0 t hsetslot hlf hw
          exact ⟨_, _, hins, hget, hrem, rfl, rfl, rfl, rfl⟩

/-- C7 witness: the round trip on a fresh fixed-capacity-2 storage. -/
theorem c7_round_trip_witness :
    ∃ s₁ s₂, (new_with_fixed_capacity_vec Nat 2).insert 11 =
        some (Except.ok ⟨0⟩, s₁) ∧
      s₁.get ⟨0⟩ = some 11 ∧
      s₁.remove ⟨0⟩ = Except.ok (11, s₂) ∧
      s₁.capacity = (new_with_fixed_capacity_vec Nat 2).capacity ∧
      s₂.capacity = (new_with_fixed_capacity_vec Nat 2).capacity ∧
      s₁.taken_slots = (new_with_fixed_capacity_vec Nat 2).taken_slots + 1 ∧
      s₂.taken_slots = s₁.taken_slots - 1 :=
  c7_round_trip Nat (new_with_fixed_capacity_vec Nat 2) 11 0 rfl
    ⟨some 1, rfl⟩ (fun t ht => by cases ht; decide)

end MemStore
